import Mathlib

/-!
Verification model of `src/ArduinoOSC/OSCClient.h` (ArduinoOSC client:
publish/subscribe scheduling and value-encoding engine).

Machine integers (`uint32_t` clock values, `uint16_t` ports) are modelled as
`Nat` with explicit `% 2 ^ 32` where C++ unsigned overflow matters.  Arduino
`String` is modelled as Lean `String` (both orders are lexicographic on the
character sequence).
-/

/-- `2 ^ 32`, the modulus of `uint32_t` arithmetic. -/
def U32 : Nat := 4294967296

/-- Scheduling state of `element::Base` (OSCClient.h lines 24-26):
`last_publish_us` and `interval_us`, both `uint32_t`; the default member
initializers are `0` and `33333`. -/
structure Base where
  last_publish_us : Nat
  interval_us : Nat
deriving DecidableEq, Repr

/-- `element::Base` as produced by the default constructor:
`last_publish_us {0}`, `interval_us {33333}` (lines 25-26). -/
def defaultBase : Base := ⟨0, 33333⟩

/-- `Base::next()` (line 28): `micros() >= (last_publish_us + interval_us)`.
The sum is computed in `uint32_t`, hence reduced `% 2 ^ 32`; `now` is the
`uint32_t` value returned by `micros()`. -/
def next (b : Base) (now : Nat) : Bool :=
  decide ((b.last_publish_us + b.interval_us) % U32 ≤ now)

/-- The wraparound-safe tick test described by the spec (§4.1, §5): true iff
the unsigned difference `now - last_publish_us`, computed modulo `2 ^ 32`, is
at least `interval_us`.  Stated from the spec's words for comparison with
`next`; requires `now, last_publish_us < 2 ^ 32`. -/
def nextSpec (b : Base) (now : Nat) : Bool :=
  decide (b.interval_us ≤ (now + U32 - b.last_publish_us) % U32)

/-- `Destination` (lines 116-153): `{ ip, port, addr, is_multicast }`. -/
structure Destination where
  ip : String
  port : Nat
  addr : String
  is_multicast : Bool
deriving DecidableEq, Repr

/-- Copy assignment `Destination::operator=(const Destination&)`
(lines 130-135): assigns `ip`, `port` and `is_multicast` from the source but
does not assign `addr`. -/
def destAssign (d src : Destination) : Destination :=
  ⟨src.ip, src.port, d.addr, src.is_multicast⟩

/-- `Destination::operator==` (lines 147-149): all four fields compared. -/
def destEqb (a b : Destination) : Bool :=
  a.ip == b.ip && a.port == b.port && a.addr == b.addr &&
    a.is_multicast == b.is_multicast

/-- `Destination::operator!=` (lines 150-152): `!(*this == rhs)`. -/
def destNeb (a b : Destination) : Bool :=
  !(destEqb a b)

/-- `Destination::operator<` (lines 143-146):
`(ip != rhs.ip) ? (ip < rhs.ip) : (port != rhs.port) ? (port < rhs.port)
: (addr < rhs.addr)`. -/
def destLt (a b : Destination) : Bool :=
  if a.ip ≠ b.ip then decide (a.ip < b.ip)
  else if a.port ≠ b.port then decide (a.port < b.port)
  else decide (a.addr < b.addr)

/-- Incomparability under `operator<`: the key equivalence used by an ordered
associative container keyed with `destLt`. -/
def destEquiv (a b : Destination) : Bool :=
  !destLt a b && !destLt b a

/-!
The element hierarchy (`namespace element`, lines 40-84) and the message it
encodes into.  `Message::push` appends one typed argument, so a message under
construction is modelled as the list of arguments pushed so far (of a value
type `α`); the message's OSC address is carried separately where needed.
Mutable program state read by `Value`'s bound reference and by `Function`'s
getter is modelled as an explicit state `σ` passed to `encodeTo`.
-/

/-- The element variants (lines 40-83):
`Value<T>` holds `T& t` and pushes the referent's current contents;
`Const<T>` holds an owned copy `const T t`; `Function<T>` holds a getter
invoked on every encode; `Tuple` holds an ordered list of child elements. -/
inductive Elem (σ α : Type) : Type where
  | value : (σ → α) → Elem σ α
  | const : α → Elem σ α
  | func : (σ → α) → Elem σ α
  | tuple : List (Elem σ α) → Elem σ α

mutual

/-- `encodeTo` (lines 48, 59, 70, 80-82): `Value` and `Function` read the
current state (`m.push(t)` / `m.push(getter())`), `Const` pushes its stored
copy, `Tuple` runs `for (auto& t : ts) t->encodeTo(m);`. -/
def encodeTo {σ α : Type} : Elem σ α → σ → List α → List α
  | .value get, s, m => m ++ [get s]
  | .const t, _, m => m ++ [t]
  | .func g, s, m => m ++ [g s]
  | .tuple ts, s, m => encodeListTo ts s m

/-- The `Tuple::encodeTo` loop body: each child encodes in sequence order
into the same message. -/
def encodeListTo {σ α : Type} : List (Elem σ α) → σ → List α → List α
  | [], _, m => m
  | e :: es, s, m => encodeListTo es s (encodeTo e s m)

end

/-!
The publish registry and `Manager::post` (lines 258-369).
-/

/-- A registered element: scheduling state (`element::Base`) plus the value
part reached through the `virtual encodeTo`. -/
structure Entry (σ α : Type) where
  base : Base
  elem : Elem σ α

/-- An element as freshly built by `make_element_ref` (lines 87-114): the
`element::*` constructors initialize only the value part, so the `Base`
subobject keeps its default member initializers `{0}` and `{33333}`. -/
def mkEntry {σ α : Type} (e : Elem σ α) : Entry σ α :=
  ⟨defaultBase, e⟩

/-- `Base::last_publish_us = micros()` as performed by `post`
(line 306): the interval is kept, the timestamp is stamped to `now`. -/
def stamp {σ α : Type} (now : Nat) (e : Entry σ α) : Entry σ α :=
  ⟨⟨now, e.base.interval_us⟩, e.elem⟩

/-- One datagram transmission performed by `Client::send(dest, elem)` /
`Client::sendMulticast(dest, elem)` (lines 244-255): `elem->init(msg,
dest.addr)` resets the message to the destination's address, `encodeTo`
fills the payload, and the packet goes to `dest.ip : dest.port`; `multicast`
records which of the two transport paths shipped it. -/
structure SendEvent (α : Type) where
  multicast : Bool
  ip : String
  port : Nat
  addr : String
  payload : List α
deriving Repr

/-- The transmission `post` performs for one due registry entry
(lines 307-310): `sendMulticast` iff the entry's key has `is_multicast`
set, message initialized to the key's address and encoded by the entry's
element. -/
def routeEvent {σ α : Type} (s : σ) (p : Destination × Entry σ α) :
    SendEvent α :=
  ⟨p.1.is_multicast, p.1.ip, p.1.port, p.1.addr, encodeTo p.2.elem s []⟩

/-- `Manager::post()` (lines 303-313) over an explicit entry list: scan in
container order; each entry whose `next()` is true is stamped with the
current clock and sent (multicast or unicast per its key); the rest are left
untouched.  Returns the updated entries and the transmissions in order. -/
def postList {σ α : Type} (now : Nat) (s : σ) :
    List (Destination × Entry σ α) →
      List (Destination × Entry σ α) × List (SendEvent α)
  | [] => ([], [])
  | p :: rest =>
    let r := postList now s rest
    if next p.2.base now then
      ((p.1, stamp now p.2) :: r.1, routeEvent s p :: r.2)
    else
      (p :: r.1, r.2)

/-- Modelled from the spec: `DestinationMap` (the Publish Registry) is
defined in `OscMessage.h`, which is not under `src/`.  Per the spec it is an
"ordered associative container, Destination → Element ownership handle"
keyed by `Destination`'s `operator<` (§2, §3); registry entries are kept in
key order and at most one entry exists per key-equivalence class.  Elements
are referred to by identity (`ElementRef` is a shared-ownership handle), so
the registry maps a `Destination` to an element id resolved through a heap. -/
structure ManagerState (σ α : Type) where
  registry : List (Destination × Nat)
  heap : Nat → Entry σ α
  fresh : Nat

/-- Modelled from the spec: `insert` of the ordered associative container
(C++ ordered-map semantics, used by `publish_impl` at line 360): walk the
key-ordered entries, place the new pair before the first strictly greater
key, and do nothing when a key equivalent under `operator<` is already
present. -/
def mapInsert : List (Destination × Nat) → Destination → Nat →
    List (Destination × Nat)
  | [], k, v => [(k, v)]
  | p :: ps, k, v =>
    if destLt k p.1 then (k, v) :: p :: ps
    else if destLt p.1 k then p :: mapInsert ps k v
    else p :: ps

/-- The ordered-map invariant on the registry: keys strictly increasing
under `operator<`. -/
def regSorted (r : List (Destination × Nat)) : Prop :=
  r.Pairwise fun p q => destLt p.1 q.1 = true

/-- `Manager::publish_impl` (lines 358-362): build the `Destination` with
`is_multicast` defaulted to `false`, allocate the freshly built element,
insert, and hand the fresh element's handle back to the caller. -/
def publish_impl {σ α : Type} (st : ManagerState σ α) (ip : String)
    (port : Nat) (addr : String) (e : Entry σ α) : ManagerState σ α × Nat :=
  (⟨mapInsert st.registry ⟨ip, port, addr, false⟩ st.fresh,
    fun n => if n = st.fresh then e else st.heap n, st.fresh + 1⟩, st.fresh)

/-- `Manager::publish_impl_multicast` (lines 364-368): identical but the
`Destination` is constructed with `is_multicast = true`. -/
def publish_impl_multicast {σ α : Type} (st : ManagerState σ α) (ip : String)
    (port : Nat) (addr : String) (e : Entry σ α) : ManagerState σ α × Nat :=
  (⟨mapInsert st.registry ⟨ip, port, addr, true⟩ st.fresh,
    fun n => if n = st.fresh then e else st.heap n, st.fresh + 1⟩, st.fresh)

/-- Mutation through a returned `ElementRef` handle (e.g. `setIntervalUsec`
or overwriting the referenced value): replaces the element the handle's id
resolves to. -/
def setHeap {σ α : Type} (st : ManagerState σ α) (id : Nat) (e : Entry σ α) :
    ManagerState σ α :=
  ⟨st.registry, fun n => if n = id then e else st.heap n, st.fresh⟩

/-- The transmissions of one `Manager::post()` tick: the registry entries,
with handles resolved through the heap, run through the `post` scan. -/
def postEvents {σ α : Type} (now : Nat) (s : σ) (st : ManagerState σ α) :
    List (SendEvent α) :=
  (postList now s (st.registry.map fun p => (p.1, st.heap p.2))).2

/-- The common shape of `publish_impl` and `publish_impl_multicast`:
insert the freshly allocated element under a given key.  Both functions are
definitionially this with the key's `is_multicast` fixed. -/
def publishKey {σ α : Type} (st : ManagerState σ α) (k : Destination)
    (e : Entry σ α) : ManagerState σ α × Nat :=
  (⟨mapInsert st.registry k st.fresh,
    fun n => if n = st.fresh then e else st.heap n, st.fresh + 1⟩, st.fresh)

/-! ### Helper lemmas -/

theorem destLt_iff (a b : Destination) :
    destLt a b = true ↔
      a.ip < b.ip ∨ (a.ip = b.ip ∧
        (a.port < b.port ∨ (a.port = b.port ∧ a.addr < b.addr))) := by
  unfold destLt
  by_cases hip : a.ip = b.ip
  · by_cases hp : a.port = b.port
    · simp [hip, hp, lt_irrefl]
    · simp [hip, hp]
  · rcases lt_trichotomy a.ip b.ip with h | h | h
    · simp [hip, h, asymm h]
    · exact absurd h hip
    · simp [hip, not_lt_of_gt h, h, fun hc => hip (le_antisymm (le_of_lt hc) (le_of_lt h)), asymm h]

theorem destLt_irrefl (a : Destination) : destLt a a = false := by
  rw [Bool.eq_false_iff]
  intro h
  rcases (destLt_iff a a).mp h with h1 | ⟨_, h2 | ⟨_, h3⟩⟩
  · exact lt_irrefl _ h1
  · exact lt_irrefl _ h2
  · exact lt_irrefl _ h3

theorem destLt_asymm (a b : Destination) (h : destLt a b = true) :
    destLt b a = false := by
  rw [Bool.eq_false_iff]
  intro h'
  rcases (destLt_iff a b).mp h with h1 | ⟨e1, h2 | ⟨e2, h3⟩⟩ <;>
    rcases (destLt_iff b a).mp h' with g1 | ⟨f1, g2 | ⟨f2, g3⟩⟩
  · exact lt_irrefl _ (lt_trans h1 g1)
  · exact absurd f1.symm (ne_of_lt h1)
  · exact absurd f1.symm (ne_of_lt h1)
  · exact absurd e1.symm (ne_of_lt g1)
  · exact lt_irrefl _ (lt_trans h2 g2)
  · exact absurd f2.symm (ne_of_lt h2)
  · exact absurd e1.symm (ne_of_lt g1)
  · exact absurd e2.symm (ne_of_lt g2)
  · exact lt_irrefl _ (lt_trans h3 g3)

theorem destLt_trans (a b c : Destination) (hab : destLt a b = true)
    (hbc : destLt b c = true) : destLt a c = true := by
  rw [destLt_iff] at *
  rcases hab with h1 | ⟨e1, h2 | ⟨e2, h3⟩⟩ <;>
    rcases hbc with g1 | ⟨f1, g2 | ⟨f2, g3⟩⟩
  · exact Or.inl (lt_trans h1 g1)
  · exact Or.inl (f1 ▸ h1)
  · exact Or.inl (f1 ▸ h1)
  · exact Or.inl (e1 ▸ g1)
  · exact Or.inr ⟨e1.trans f1, Or.inl (lt_trans h2 g2)⟩
  · exact Or.inr ⟨e1.trans f1, Or.inl (f2 ▸ h2)⟩
  · exact Or.inl (e1 ▸ g1)
  · exact Or.inr ⟨e1.trans f1, Or.inl (e2 ▸ g2)⟩
  · exact Or.inr ⟨e1.trans f1, Or.inr ⟨e2.trans f2, lt_trans h3 g3⟩⟩

theorem destEquiv_iff (a b : Destination) :
    destEquiv a b = true ↔ a.ip = b.ip ∧ a.port = b.port ∧ a.addr = b.addr := by
  constructor
  · intro h
    rw [destEquiv, Bool.and_eq_true, Bool.not_eq_true', Bool.not_eq_true'] at h
    obtain ⟨hab, hba⟩ := h
    have hip : a.ip = b.ip := by
      rcases lt_trichotomy a.ip b.ip with h1 | h1 | h1
      · exact absurd ((destLt_iff a b).mpr (Or.inl h1)) (by simp [hab])
      · exact h1
      · exact absurd ((destLt_iff b a).mpr (Or.inl h1)) (by simp [hba])
    have hport : a.port = b.port := by
      rcases lt_trichotomy a.port b.port with h1 | h1 | h1
      · exact absurd ((destLt_iff a b).mpr (Or.inr ⟨hip, Or.inl h1⟩)) (by simp [hab])
      · exact h1
      · exact absurd ((destLt_iff b a).mpr (Or.inr ⟨hip.symm, Or.inl h1⟩)) (by simp [hba])
    have haddr : a.addr = b.addr := by
      rcases lt_trichotomy a.addr b.addr with h1 | h1 | h1
      · exact absurd ((destLt_iff a b).mpr (Or.inr ⟨hip, Or.inr ⟨hport, h1⟩⟩)) (by simp [hab])
      · exact h1
      · exact absurd ((destLt_iff b a).mpr (Or.inr ⟨hip.symm, Or.inr ⟨hport.symm, h1⟩⟩)) (by simp [hba])
    exact ⟨hip, hport, haddr⟩
  · rintro ⟨hip, hport, haddr⟩
    rw [destEquiv, Bool.and_eq_true, Bool.not_eq_true', Bool.not_eq_true']
    constructor
    · rw [Bool.eq_false_iff]
      intro h
      rcases (destLt_iff a b).mp h with h1 | ⟨_, h2 | ⟨_, h3⟩⟩
      · exact absurd hip (ne_of_lt h1)
      · exact absurd hport (ne_of_lt h2)
      · exact absurd haddr (ne_of_lt h3)
    · rw [Bool.eq_false_iff]
      intro h
      rcases (destLt_iff b a).mp h with h1 | ⟨_, h2 | ⟨_, h3⟩⟩
      · exact absurd hip.symm (ne_of_lt h1)
      · exact absurd hport.symm (ne_of_lt h2)
      · exact absurd haddr.symm (ne_of_lt h3)

mutual

theorem encodeTo_append {σ α : Type} (e : Elem σ α) (s : σ) (m : List α) :
    encodeTo e s m = m ++ encodeTo e s [] := by
  cases e with
  | value g => simp [encodeTo]
  | const t => simp [encodeTo]
  | func g => simp [encodeTo]
  | tuple ts => simpa [encodeTo] using encodeListTo_append ts s m

theorem encodeListTo_append {σ α : Type} (es : List (Elem σ α)) (s : σ)
    (m : List α) : encodeListTo es s m = m ++ encodeListTo es s [] := by
  cases es with
  | nil => simp [encodeListTo]
  | cons e es =>
    rw [encodeListTo, encodeListTo, encodeListTo_append es s (encodeTo e s m),
      encodeListTo_append es s (encodeTo e s []), encodeTo_append e s m,
      List.append_assoc]

end

theorem encodeListTo_eq_join {σ α : Type} (es : List (Elem σ α)) (s : σ) :
    encodeListTo es s [] = (es.map (fun e => encodeTo e s [])).flatten := by
  induction es with
  | nil => simp [encodeListTo]
  | cons e es ih =>
    rw [encodeListTo, encodeListTo_append, encodeTo_append, List.nil_append,
      List.map_cons, List.flatten_cons, ih]

theorem destEquiv_symm (a b : Destination) : destEquiv a b = destEquiv b a := by
  rw [destEquiv, destEquiv, Bool.and_comm]

theorem destEquiv_same_triple (ip : String) (port : Nat) (addr : String)
    (b1 b2 : Bool) :
    destEquiv ⟨ip, port, addr, b1⟩ ⟨ip, port, addr, b2⟩ = true :=
  (destEquiv_iff _ _).mpr ⟨rfl, rfl, rfl⟩

theorem destEquiv_false_transfer (p d d' : Destination)
    (hdd : destEquiv d d' = true) (hp : destEquiv p d = false) :
    destEquiv p d' = false := by
  rw [Bool.eq_false_iff] at hp ⊢
  intro h
  obtain ⟨h1, h2, h3⟩ := (destEquiv_iff p d').mp h
  obtain ⟨g1, g2, g3⟩ := (destEquiv_iff d d').mp hdd
  exact hp ((destEquiv_iff p d).mpr
    ⟨h1.trans g1.symm, h2.trans g2.symm, h3.trans g3.symm⟩)

theorem mapInsert_mem (r : List (Destination × Nat)) (k : Destination)
    (v : Nat) (q : Destination × Nat) (hq : q ∈ mapInsert r k v) :
    q ∈ r ∨ q = (k, v) := by
  induction r with
  | nil =>
    rw [mapInsert, List.mem_singleton] at hq
    exact Or.inr hq
  | cons p ps ih =>
    rw [mapInsert] at hq
    split at hq
    · rcases List.mem_cons.mp hq with h | h
      · exact Or.inr h
      · exact Or.inl h
    · split at hq
      · rcases List.mem_cons.mp hq with h | h
        · exact Or.inl (by rw [h]; exact List.mem_cons_self p ps)
        · rcases ih h with h' | h'
          · exact Or.inl (List.mem_cons_of_mem p h')
          · exact Or.inr h'
      · exact Or.inl hq

theorem mapInsert_of_equiv_mem (r : List (Destination × Nat))
    (k : Destination) (v : Nat) (hs : regSorted r)
    (hmem : ∃ p ∈ r, destEquiv p.1 k = true) : mapInsert r k v = r := by
  induction r with
  | nil => simp at hmem
  | cons p ps ih =>
    obtain ⟨q, hq, hqe⟩ := hmem
    rw [regSorted, List.pairwise_cons] at hs
    rw [destEquiv, Bool.and_eq_true, Bool.not_eq_true', Bool.not_eq_true'] at hqe
    rw [mapInsert]
    rcases List.mem_cons.mp hq with hq' | hq'
    · subst hq'
      rw [if_neg (by simp [hqe.2]), if_neg (by simp [hqe.1])]
    · have hpq : destLt p.1 q.1 = true := hs.1 q hq'
      have hkp : destLt k p.1 = false := by
        rw [Bool.eq_false_iff]
        intro h
        have := destLt_trans k p.1 q.1 h hpq
        simp [hqe.2] at this
      rw [if_neg (by simp [hkp])]
      by_cases hpk : destLt p.1 k = true
      · rw [if_pos hpk, ih hs.2 ⟨q, hq', by rw [destEquiv, hqe.1, hqe.2]; rfl⟩]
      · rw [if_neg hpk]

theorem mapInsert_sorted (r : List (Destination × Nat)) (k : Destination)
    (v : Nat) (hs : regSorted r) : regSorted (mapInsert r k v) := by
  induction r with
  | nil =>
    rw [mapInsert]
    exact List.pairwise_singleton _ _
  | cons p ps ih =>
    rw [regSorted, List.pairwise_cons] at hs
    rw [mapInsert]
    split
    · rw [regSorted, List.pairwise_cons]
      constructor
      · intro q hq
        rcases List.mem_cons.mp hq with h | h
        · subst h; assumption
        · exact destLt_trans _ _ _ (by assumption) (hs.1 q h)
      · exact List.pairwise_cons.mpr hs
    · split
      · rw [regSorted, List.pairwise_cons]
        constructor
        · intro q hq
          rcases mapInsert_mem ps k v q hq with h | h
          · exact hs.1 q h
          · subst h; assumption
        · exact ih hs.2
      · exact List.pairwise_cons.mpr hs

theorem mapInsert_self_mem (r : List (Destination × Nat)) (k : Destination)
    (v : Nat) (hn : ∀ p ∈ r, destEquiv p.1 k = false) :
    (k, v) ∈ mapInsert r k v := by
  induction r with
  | nil => simp [mapInsert]
  | cons p ps ih =>
    rw [mapInsert]
    cases hkp : destLt k p.1 with
    | true =>
      rw [if_pos rfl]
      exact List.mem_cons_self _ _
    | false =>
      rw [if_neg (by simp)]
      cases hpk : destLt p.1 k with
      | true =>
        rw [if_pos rfl]
        exact List.mem_cons_of_mem p
          (ih fun q hq => hn q (List.mem_cons_of_mem p hq))
      | false =>
        exfalso
        have hp := hn p (List.mem_cons_self p ps)
        rw [destEquiv, hkp, hpk] at hp
        simp at hp

theorem mapInsert_filter_equiv (r : List (Destination × Nat))
    (k : Destination) (v : Nat) (hn : ∀ p ∈ r, destEquiv p.1 k = false) :
    (mapInsert r k v).filter (fun p => destEquiv p.1 k) = [(k, v)] := by
  induction r with
  | nil => simp [mapInsert, List.filter, destEquiv_same_triple,
      destEquiv, destLt_irrefl]
  | cons p ps ih =>
    rw [mapInsert]
    have hp : destEquiv p.1 k = false := hn p (List.mem_cons_self p ps)
    cases hkp : destLt k p.1 with
    | true =>
      rw [if_pos rfl, List.filter_cons,
        if_pos (by simp [destEquiv, destLt_irrefl]),
        List.filter_eq_nil_iff.mpr fun q hq => by simp [hn q hq]]
    | false =>
      rw [if_neg (by simp)]
      cases hpk : destLt p.1 k with
      | true =>
        rw [if_pos rfl, List.filter_cons, if_neg (by simp [hp])]
        exact ih fun q hq => hn q (List.mem_cons_of_mem p hq)
      | false =>
        exfalso
        rw [destEquiv, hkp, hpk] at hp
        simp at hp

theorem postList_sends {σ α : Type} (now : Nat) (s : σ)
    (l : List (Destination × Entry σ α)) :
    (postList now s l).2 =
      (l.filter fun p => next p.2.base now).map (routeEvent s) := by
  induction l with
  | nil => simp [postList]
  | cons p rest ih =>
    rw [postList, List.filter_cons]
    by_cases h : next p.2.base now
    · simp only [h, if_pos, List.map_cons]
      simpa using ih
    · simp only [Bool.eq_false_iff.mpr h]
      simpa [h] using ih

theorem postList_entries {σ α : Type} (now : Nat) (s : σ)
    (l : List (Destination × Entry σ α)) :
    (postList now s l).1 =
      l.map fun p => if next p.2.base now then (p.1, stamp now p.2) else p := by
  induction l with
  | nil => simp [postList]
  | cons p rest ih =>
    rw [postList, List.map_cons]
    by_cases h : next p.2.base now
    · simpa [h] using ih
    · simpa [h] using ih

theorem postEvents_congr {σ α : Type} (now : Nat) (s : σ)
    (st st' : ManagerState σ α) (hr : st'.registry = st.registry)
    (hh : ∀ p ∈ st.registry, st'.heap p.2 = st.heap p.2) :
    postEvents now s st' = postEvents now s st := by
  rw [postEvents, postEvents, hr,
    List.map_congr_left fun p hp => by rw [hh p hp]]

theorem flatten_map_singleton_eq {α : Type} (vs : List α) :
    (vs.map fun v => [v]).flatten = vs := by
  induction vs with
  | nil => rfl
  | cons v vs ih => rw [List.map_cons, List.flatten_cons, ih]; rfl

/-! ### Claims -/

/-- Claim C1: the spec requires `next()` to compare the wraparound-safe
unsigned difference `now - lastSentTimestampMicros` (mod `2 ^ 32`) against
`intervalMicros`; the code instead evaluates
`micros() >= last_publish_us + interval_us` with a wrapping `uint32_t` sum.
The two disagree on both sides of a wrap: with `last_publish_us =
4294966296` and the default interval `33333` the sum wraps to `32333`, so
4 µs after the stamp (`now = 4294966300`) the code ticks again although the
safe difference is only 4; with `last_publish_us = 4294967000`,
`interval_us = 200` and the clock wrapped to `now = 4` the code refuses to
tick although the safe difference is 300. -/
theorem C1_next_not_wraparound_safe :
    next ⟨4294966296, 33333⟩ 4294966300 = true ∧
      nextSpec ⟨4294966296, 33333⟩ 4294966300 = false ∧
      next ⟨4294967000, 200⟩ 4 = false ∧
      nextSpec ⟨4294967000, 200⟩ 4 = true := by
  decide

/-- Claim C2 counterexample: register an element with the default interval
while the monotonic clock reads 100000 µs; the fresh element's
`last_publish_us` is 0 (default member initializer), not the registration
instant, so `next()` is already true immediately after the registration,
where the claim requires false. -/
theorem C2_counterexample :
    next (mkEntry (Elem.const (42 : Int) : Elem Unit Int)).base 100000 =
      true := by
  decide

/-- Claim C2 (amended): a freshly registered element carries
`last_publish_us = 0` and the default `interval_us = 33333`, so its `next()`
is true iff the monotonic clock reads at least 33333 µs — independent of the
registration instant.  `next()` is false immediately after registration only
when the registration happens during the first 33333 µs of clock time, and
it is true at every clock value `≥ 33333`. -/
theorem C2_fresh_element_next {σ α : Type} (e : Elem σ α) :
    (mkEntry e).base = ⟨0, 33333⟩ ∧
      ∀ now : Nat, next (mkEntry e).base now = decide (33333 ≤ now) := by
  refine ⟨rfl, fun now => ?_⟩
  norm_num [mkEntry, defaultBase, next, U32]

/-- Claim C3: one `post()` tick transmits exactly the due entries, in scan
order — each entry whose `next()` is true yields one send, shipped through
the multicast path iff its key's `is_multicast` flag is set, and is
restamped to the current clock; entries whose `next()` is false are left
unchanged and send nothing.  In particular zero due entries yield zero
sends, and when all entries are due the number of sends equals the number of
entries. -/
theorem C3_post_sends_due_entries {σ α : Type} (now : Nat) (s : σ) :
    (∀ l : List (Destination × Entry σ α),
      (postList now s l).2 =
        (l.filter fun p => next p.2.base now).map (routeEvent s)) ∧
    (∀ l : List (Destination × Entry σ α),
      (postList now s l).1 =
        l.map fun p =>
          if next p.2.base now then (p.1, stamp now p.2) else p) ∧
    (∀ l : List (Destination × Entry σ α),
      (∀ p ∈ l, next p.2.base now = false) →
        (postList now s l).2 = [] ∧ (postList now s l).1 = l) ∧
    (∀ l : List (Destination × Entry σ α),
      (∀ p ∈ l, next p.2.base now = true) →
        (postList now s l).2.length = l.length) := by
  refine ⟨postList_sends now s, postList_entries now s,
    fun l hl => ⟨?_, ?_⟩, fun l hl => ?_⟩
  · rw [postList_sends,
      List.filter_eq_nil_iff.mpr fun p hp => by simp [hl p hp], List.map_nil]
  · rw [postList_entries]
    have : ∀ p ∈ l,
        (if next p.2.base now then (p.1, stamp now p.2) else p) = id p :=
      fun p hp => by simp [hl p hp]
    rw [List.map_congr_left this, List.map_id]
  · rw [postList_sends, List.length_map,
      List.filter_eq_self.mpr fun p hp => by simp [hl p hp]]

/-- Witness for C3: a registry with one due entry (interval 1 µs, clock at
5 µs) produces exactly one send. -/
theorem C3_witness :
    (postList 5 () [(⟨"10.0.0.5", 9000, "/x", false⟩,
        (⟨⟨0, 1⟩, Elem.const (7 : Int)⟩ : Entry Unit Int))]).2.length = 1 :=
  (C3_post_sends_due_entries 5 ()).2.2.2 _ (by decide)

/-- Claim C4: the spec requires copy assignment to copy all four fields so
that `d1 = d2` makes `d1 == d2`; `Destination::operator=(const Destination&)`
copies `ip`, `port` and `is_multicast` but omits `addr`.  Assigning a
destination with address "/y" onto one holding "/x" leaves "/x" in place and
the two compare unequal. -/
theorem C4_copy_assignment_drops_addr :
    destAssign ⟨"10.0.0.5", 9000, "/x", false⟩
        ⟨"10.0.0.5", 9000, "/y", false⟩ =
      ⟨"10.0.0.5", 9000, "/x", false⟩ ∧
    destEqb
      (destAssign ⟨"10.0.0.5", 9000, "/x", false⟩
        ⟨"10.0.0.5", 9000, "/y", false⟩)
      ⟨"10.0.0.5", 9000, "/y", false⟩ = false := by
  decide

/-- Claim C5: `operator==` holds iff all four fields (`ip`, `port`, `addr`,
`is_multicast`) match pairwise, and `operator!=` is its exact negation. -/
theorem C5_eq_iff_all_fields (a b : Destination) :
    (destEqb a b = true ↔
      a.ip = b.ip ∧ a.port = b.port ∧ a.addr = b.addr ∧
        a.is_multicast = b.is_multicast) ∧
    destNeb a b = !destEqb a b := by
  refine ⟨?_, rfl⟩
  simp [destEqb, and_assoc]

/-- Witness for C5 at a concrete pair of equal destinations. -/
theorem C5_witness :
    destEqb ⟨"a", 1, "/x", true⟩ ⟨"a", 1, "/x", true⟩ = true :=
  (C5_eq_iff_all_fields ⟨"a", 1, "/x", true⟩ ⟨"a", 1, "/x", true⟩).1.mpr
    ⟨rfl, rfl, rfl, rfl⟩

/-- Claim C6: `operator<` is a strict weak ordering — irreflexive,
asymmetric, transitive, with transitive incomparability — which is
lexicographic on `(ip, port, addr)` and independent of `is_multicast`: two
destinations agreeing on those three fields are incomparable regardless of
their flags. -/
theorem C6_destLt_strict_weak_order :
    (∀ a : Destination, destLt a a = false) ∧
    (∀ a b : Destination, destLt a b = true → destLt b a = false) ∧
    (∀ a b c : Destination,
      destLt a b = true → destLt b c = true → destLt a c = true) ∧
    (∀ a b c : Destination,
      destEquiv a b = true → destEquiv b c = true → destEquiv a c = true) ∧
    (∀ a b : Destination, destLt a b = true ↔
      a.ip < b.ip ∨ (a.ip = b.ip ∧
        (a.port < b.port ∨ (a.port = b.port ∧ a.addr < b.addr)))) ∧
    (∀ a b : Destination, a.ip = b.ip → a.port = b.port → a.addr = b.addr →
      destLt a b = false ∧ destLt b a = false) := by
  refine ⟨destLt_irrefl, destLt_asymm, destLt_trans, ?_, destLt_iff, ?_⟩
  · intro a b c hab hbc
    obtain ⟨h1, h2, h3⟩ := (destEquiv_iff a b).mp hab
    obtain ⟨g1, g2, g3⟩ := (destEquiv_iff b c).mp hbc
    exact (destEquiv_iff a c).mpr ⟨h1.trans g1, h2.trans g2, h3.trans g3⟩
  · intro a b h1 h2 h3
    have h := (destEquiv_iff a b).mpr ⟨h1, h2, h3⟩
    rw [destEquiv, Bool.and_eq_true, Bool.not_eq_true',
      Bool.not_eq_true'] at h
    exact h

/-- Witness for C6: transitivity applied at three concrete destinations, and
flag-independence at a unicast/multicast pair sharing `(ip, port, addr)`. -/
theorem C6_witness :
    destLt ⟨"a", 1, "/x", false⟩ ⟨"a", 3, "/x", false⟩ = true ∧
    destLt ⟨"a", 1, "/x", false⟩ ⟨"a", 1, "/x", true⟩ = false :=
  ⟨C6_destLt_strict_weak_order.2.2.1 ⟨"a", 1, "/x", false⟩
      ⟨"a", 2, "/x", false⟩ ⟨"a", 3, "/x", false⟩ (by decide) (by decide),
    (C6_destLt_strict_weak_order.2.2.2.2.2 ⟨"a", 1, "/x", false⟩
      ⟨"a", 1, "/x", true⟩ rfl rfl rfl).1⟩

/-- Claim C7: the variadic `publish` wraps one child element per argument in
a `Tuple` in call order, and `Tuple::encodeTo` appends every child's
value(s) into the single message in exactly that order; for constant
children `v1..vn` the payload is `[v1, ..., vn]`, and for three int children
1, 2, 3 the message has argument count 3 with payload `[1, 2, 3]`. -/
theorem C7_tuple_encodes_in_call_order :
    (∀ (σ α : Type) (es : List (Elem σ α)) (s : σ) (m : List α),
      encodeTo (Elem.tuple es) s m =
        m ++ (es.map fun e => encodeTo e s []).flatten) ∧
    (∀ (σ α : Type) (vs : List α) (s : σ) (m : List α),
      encodeTo (Elem.tuple (vs.map Elem.const)) s m = m ++ vs) ∧
    encodeTo (Elem.tuple [Elem.const 1, Elem.const 2, Elem.const 3]) ()
        ([] : List Int) = [1, 2, 3] ∧
    (encodeTo (Elem.tuple [Elem.const 1, Elem.const 2, Elem.const 3]) ()
        ([] : List Int)).length = 3 := by
  have h1 : ∀ (σ α : Type) (es : List (Elem σ α)) (s : σ) (m : List α),
      encodeTo (Elem.tuple es) s m =
        m ++ (es.map fun e => encodeTo e s []).flatten := by
    intro σ α es s m
    rw [encodeTo, encodeListTo_append, encodeListTo_eq_join]
  have h2 : ∀ (σ α : Type) (vs : List α) (s : σ) (m : List α),
      encodeTo (Elem.tuple (vs.map Elem.const)) s m = m ++ vs := by
    intro σ α vs s m
    rw [h1, List.map_map]
    have hc : ((fun e => encodeTo e s []) ∘ Elem.const) = fun v : α => [v] := by
      funext v
      rw [Function.comp_apply, encodeTo, List.nil_append]
    rw [hc, flatten_map_singleton_eq]
  refine ⟨h1, h2, ?_, ?_⟩
  · exact h2 Unit Int [1, 2, 3] () []
  · rw [show encodeTo (Elem.tuple [Elem.const 1, Elem.const 2, Elem.const 3])
        () ([] : List Int) = [1, 2, 3] from h2 Unit Int [1, 2, 3] () []]
    rfl

/-- Claim C8: a `Function` element re-invokes its getter on every
`encodeTo`, so encodes after a state change reflect the new value; a `Const`
element encodes the snapshot captured at registration time even after the
state changes.  Concretely with the state itself as the value: the getter
element encodes 5 then 7 as the state goes from 5 to 7, while the constant
captured at state 5 encodes 5 both times. -/
theorem C8_getter_fresh_vs_const_snapshot :
    (∀ (σ α : Type) (g : σ → α) (s1 s2 : σ) (m : List α),
      encodeTo (Elem.func g) s1 m = m ++ [g s1] ∧
      encodeTo (Elem.func g) s2 m = m ++ [g s2]) ∧
    (∀ (σ α : Type) (read : σ → α) (sReg s1 s2 : σ) (m : List α),
      encodeTo (Elem.const (read sReg)) s1 m = m ++ [read sReg] ∧
      encodeTo (Elem.const (read sReg)) s2 m = m ++ [read sReg]) ∧
    (encodeTo (Elem.func fun s : Nat => s) 5 [] = [5] ∧
      encodeTo (Elem.func fun s : Nat => s) 7 [] = [7]) ∧
    (encodeTo (Elem.const 5 : Elem Nat Nat) 5 [] = [5] ∧
      encodeTo (Elem.const 5 : Elem Nat Nat) 7 [] = [5]) := by
  refine ⟨fun σ α g s1 s2 m => ⟨?_, ?_⟩,
    fun σ α read sReg s1 s2 m => ⟨?_, ?_⟩, ⟨?_, ?_⟩, ⟨?_, ?_⟩⟩ <;>
    simp [encodeTo]

theorem publishKey_second_noop {σ α : Type} (st : ManagerState σ α)
    (k₀ k₁ : Destination) (e1 e2 : Entry σ α)
    (hk : destEquiv k₀ k₁ = true)
    (hs : regSorted st.registry)
    (hb : ∀ p ∈ st.registry, p.2 < st.fresh)
    (hn : ∀ p ∈ st.registry, destEquiv p.1 k₀ = false) :
    (publishKey (publishKey st k₀ e1).1 k₁ e2).1.registry =
        (publishKey st k₀ e1).1.registry ∧
      ((publishKey st k₀ e1).1.registry.filter
        fun p => destEquiv p.1 k₀).map Prod.fst = [k₀] ∧
      ∀ now (s : σ),
        postEvents now s (publishKey (publishKey st k₀ e1).1 k₁ e2).1 =
          postEvents now s (publishKey st k₀ e1).1 := by
  have hs1 : regSorted (mapInsert st.registry k₀ st.fresh) :=
    mapInsert_sorted _ _ _ hs
  have hmem1 : ∃ p ∈ mapInsert st.registry k₀ st.fresh,
      destEquiv p.1 k₁ = true :=
    ⟨(k₀, st.fresh), mapInsert_self_mem _ _ _ hn, hk⟩
  have hnoop : mapInsert (mapInsert st.registry k₀ st.fresh) k₁
      (st.fresh + 1) = mapInsert st.registry k₀ st.fresh :=
    mapInsert_of_equiv_mem _ _ _ hs1 hmem1
  refine ⟨hnoop, ?_, ?_⟩
  · show ((mapInsert st.registry k₀ st.fresh).filter
      fun p => destEquiv p.1 k₀).map Prod.fst = [k₀]
    rw [mapInsert_filter_equiv _ _ _ hn, List.map_singleton]
  · intro now s
    apply postEvents_congr
    · exact hnoop
    · intro p hp
      have hlt : p.2 < st.fresh + 1 := by
        rcases mapInsert_mem _ _ _ p hp with h | h
        · exact Nat.lt_succ_of_lt (hb p h)
        · rw [h]
          exact Nat.lt_succ_self _
      have hne : p.2 ≠ st.fresh + 1 := Nat.ne_of_lt hlt
      simp [publishKey, hne]

/-- Claim C9: publishing again to a Destination already present in the
registry leaves the registry unchanged — the previously registered element
keeps being scheduled and sent by `post()` — while the returned handle is a
freshly allocated element id that does not occur in the registry, so
mutating the element behind the returned handle (interval or value) has no
effect on what `post()` sends. -/
theorem C9_republish_keeps_old_entry {σ α : Type} (st : ManagerState σ α)
    (ip : String) (port : Nat) (addr : String) (e : Entry σ α)
    (hs : regSorted st.registry)
    (hb : ∀ p ∈ st.registry, p.2 < st.fresh)
    (hmem : ∃ p ∈ st.registry, destEquiv p.1 ⟨ip, port, addr, false⟩ = true) :
    (publish_impl st ip port addr e).1.registry = st.registry ∧
    (publish_impl st ip port addr e).2 = st.fresh ∧
    (∀ p ∈ (publish_impl st ip port addr e).1.registry,
      p.2 ≠ (publish_impl st ip port addr e).2) ∧
    ∀ (e' : Entry σ α) (now : Nat) (s : σ),
      postEvents now s
          (setHeap (publish_impl st ip port addr e).1
            (publish_impl st ip port addr e).2 e') =
        postEvents now s st := by
  have hreg : (publish_impl st ip port addr e).1.registry = st.registry :=
    mapInsert_of_equiv_mem _ _ _ hs hmem
  refine ⟨hreg, rfl, ?_, ?_⟩
  · intro p hp
    rw [hreg] at hp
    exact Nat.ne_of_lt (hb p hp)
  · intro e' now s
    apply postEvents_congr
    · exact hreg
    · intro p hp
      have hne : p.2 ≠ st.fresh := Nat.ne_of_lt (hb p hp)
      simp [setHeap, publish_impl, hne]

/-- Witness for C9: a registry already holding `10.0.0.5:9000 /x`; a second
publish to the same destination leaves the registry unchanged. -/
theorem C9_witness :
    (publish_impl
        (⟨[(⟨"10.0.0.5", 9000, "/x", false⟩, 0)],
          fun _ => ⟨⟨0, 33333⟩, Elem.const 1⟩, 1⟩ : ManagerState Unit Int)
        "10.0.0.5" 9000 "/x" ⟨⟨0, 1000⟩, Elem.const 2⟩).1.registry =
      [(⟨"10.0.0.5", 9000, "/x", false⟩, 0)] :=
  (C9_republish_keeps_old_entry _ "10.0.0.5" 9000 "/x" _
    (by simp [regSorted]) (by simp)
    ⟨(⟨"10.0.0.5", 9000, "/x", false⟩, 0), List.mem_singleton_self _,
      by simp [destEquiv, destLt_irrefl]⟩).1

/-- Claim C10: the registry's key equivalence comes from `operator<`, which
ignores `is_multicast`, so a unicast and a multicast Destination with the
same `(ip, port, addr)` occupy one registry slot: after `publish` followed by
`publishMulticast` with that triple (or the other order), the second call
changes nothing — the registry holds exactly one entry for the triple, its
key carries the `is_multicast` flag of the first call, and `post()` sends
exactly what it sent after the first registration alone (hence routes by the
first call's flag). -/
theorem C10_registry_slot_shared {σ α : Type} (st : ManagerState σ α)
    (ip : String) (port : Nat) (addr : String) (e1 e2 : Entry σ α)
    (hs : regSorted st.registry)
    (hb : ∀ p ∈ st.registry, p.2 < st.fresh)
    (hn : ∀ p ∈ st.registry, destEquiv p.1 ⟨ip, port, addr, false⟩ = false) :
    ((publish_impl_multicast (publish_impl st ip port addr e1).1
          ip port addr e2).1.registry =
        (publish_impl st ip port addr e1).1.registry ∧
      ((publish_impl st ip port addr e1).1.registry.filter
        fun p => destEquiv p.1 ⟨ip, port, addr, false⟩).map Prod.fst =
        [⟨ip, port, addr, false⟩] ∧
      ∀ now (s : σ),
        postEvents now s (publish_impl_multicast
            (publish_impl st ip port addr e1).1 ip port addr e2).1 =
          postEvents now s (publish_impl st ip port addr e1).1) ∧
    ((publish_impl (publish_impl_multicast st ip port addr e1).1
          ip port addr e2).1.registry =
        (publish_impl_multicast st ip port addr e1).1.registry ∧
      ((publish_impl_multicast st ip port addr e1).1.registry.filter
        fun p => destEquiv p.1 ⟨ip, port, addr, true⟩).map Prod.fst =
        [⟨ip, port, addr, true⟩] ∧
      ∀ now (s : σ),
        postEvents now s (publish_impl
            (publish_impl_multicast st ip port addr e1).1 ip port addr e2).1 =
          postEvents now s (publish_impl_multicast st ip port addr e1).1) := by
  constructor
  · exact publishKey_second_noop st ⟨ip, port, addr, false⟩
      ⟨ip, port, addr, true⟩ e1 e2 (destEquiv_same_triple ip port addr false true)
      hs hb hn
  · exact publishKey_second_noop st ⟨ip, port, addr, true⟩
      ⟨ip, port, addr, false⟩ e1 e2 (destEquiv_same_triple ip port addr true false)
      hs hb fun p hp => destEquiv_false_transfer p.1 ⟨ip, port, addr, false⟩
        ⟨ip, port, addr, true⟩ (destEquiv_same_triple ip port addr false true)
        (hn p hp)

/-- Witness for C10: from an empty registry, `publish` then
`publishMulticast` to the same `(ip, port, addr)`; the second call leaves
the registry as the first call made it. -/
theorem C10_witness :
    (publish_impl_multicast
        (publish_impl
          (⟨[], fun _ => ⟨⟨0, 33333⟩, Elem.const 0⟩, 0⟩ : ManagerState Unit Int)
          "239.0.0.1" 9000 "/m" ⟨⟨0, 33333⟩, Elem.const 1⟩).1
        "239.0.0.1" 9000 "/m" ⟨⟨0, 33333⟩, Elem.const 2⟩).1.registry =
      (publish_impl
        (⟨[], fun _ => ⟨⟨0, 33333⟩, Elem.const 0⟩, 0⟩ : ManagerState Unit Int)
        "239.0.0.1" 9000 "/m" ⟨⟨0, 33333⟩, Elem.const 1⟩).1.registry :=
  ((C10_registry_slot_shared _ "239.0.0.1" 9000 "/m" _ _
    (by simp [regSorted]) (by simp) (by simp)).1).1
